import Mathlib

/-!
Shallow embedding of the inference pipeline of the `ai_api` crate
(src/ai_api/src/{services,api,error,main}.rs).

Strings are modelled as lists of Unicode scalar values (`List Char`);
all markers involved are ASCII, so character offsets coincide with the
byte offsets used by Rust slicing at the places the code slices.
Logits (`f32` in the source) are modelled as rationals, on which the
source's `total_cmp` ordering coincides with the rational order.
The external llama runtime (context creation, tokenizer, decode calls,
logit reads) is a parameter `Env` of the pipeline: each of its operations
is an abstract function of the request-visible interaction history,
mirroring the narrow interface the Rust code calls.
-/

namespace AiApi

/-- `enum Role` from src/api.rs (also duplicated in src/main.rs). -/
inductive Role
  | system
  | user
  | assistant
deriving DecidableEq, Repr

/-- `impl Display for Role` from src/api.rs: lowercase role names. -/
def Role.display : Role → List Char
  | .system => "system".toList
  | .user => "user".toList
  | .assistant => "assistant".toList

/-- `struct Message` from src/api.rs. -/
structure Message where
  role : Role
  content : List Char

/-- `enum ServiceError` from src/error.rs (payload is the formatted
underlying-library error message). -/
inductive ServiceError
  | LlamaContext (msg : String)
  | LlamaTokenize (msg : String)
  | LlamaDecode (msg : String)
  | LlamaTokenProcess (msg : String)
  | InternalError
deriving DecidableEq, Repr

/-- The per-message turn string built by the `format!` call in
`build_prompt_from_messages` (src/services.rs lines 18-21):
start marker, role name, newline, content, end marker, newline. -/
def turnOf (message : Message) : List Char :=
  "<|im_start|>".toList ++ Role.display message.role ++ "\n".toList
    ++ message.content ++ "<|im_end|>".toList ++ "\n".toList

/-- `build_prompt_from_messages` from src/services.rs lines 15-26:
fold over the messages appending each turn, then append the
assistant generation cue. -/
def build_prompt_from_messages (messages : List Message) : List Char :=
  (messages.foldl (fun prompt message => prompt ++ turnOf message) [])
    ++ "<|im_start|>assistant\n".toList

/-- The closing thought marker literal of src/services.rs line 30. -/
def thinkMarker : List Char := "</think>".toList

/-- The pattern `pat` occurs in `s` starting at offset `p`. -/
def markerAt (pat s : List Char) (p : Nat) : Bool :=
  (s.drop p).take pat.length == pat

/-- Search downward from offset `start` for the last occurrence of `pat`
in `s`; model of the right-to-left scan performed by Rust
`str::rfind` for a literal pattern. -/
def rfindFrom (pat s : List Char) : Nat → Option Nat
  | 0 => if markerAt pat s 0 then some 0 else none
  | p + 1 => if markerAt pat s (p + 1) then some (p + 1) else rfindFrom pat s p

/-- `raw_output.rfind("</think>")`-style search: offset of the start of
the last occurrence of `pat` in `s`, if any. -/
def rfindMarker (pat s : List Char) : Option Nat :=
  rfindFrom pat s s.length

/-- Rust `char::is_whitespace`: the Unicode `White_Space` property. -/
def rustWhitespace (c : Char) : Bool :=
  (0x9 ≤ c.val && c.val ≤ 0xD) || c.val = 0x20 || c.val = 0x85 || c.val = 0xA0
    || c.val = 0x1680 || (0x2000 ≤ c.val && c.val ≤ 0x200A)
    || c.val = 0x2028 || c.val = 0x2029 || c.val = 0x202F || c.val = 0x205F
    || c.val = 0x3000

/-- Rust `str::trim_start`: drop leading whitespace characters. -/
def trimStart (s : List Char) : List Char :=
  s.dropWhile rustWhitespace

/-- The thought/answer split computed by `parse_and_log_thoughts`
(src/services.rs lines 29-43): on a match of the last `</think>`,
the thought block is everything up to and including the marker and the
answer is the rest with leading whitespace trimmed; otherwise there is
no thought block and the answer is the raw output unchanged. -/
def splitThoughts (raw_output : List Char) : Option (List Char) × List Char :=
  match rfindMarker thinkMarker raw_output with
  | some end_tag_pos =>
      (some (raw_output.take (end_tag_pos + thinkMarker.length)),
       trimStart (raw_output.drop (end_tag_pos + thinkMarker.length)))
  | none => (none, raw_output)

/-- `parse_and_log_thoughts` (src/services.rs lines 29-43): the value
returned to the caller (the thought component is only printed). -/
def parse_and_log_thoughts (raw_output : List Char) : List Char :=
  (splitThoughts raw_output).2

/-- Rust `Iterator::max_by` over `logits.iter().enumerate()` with
`a.total_cmp(b)` on the values (src/services.rs lines 81-88):
left fold that keeps the current best only on a strictly greater
comparison, so an equal later element replaces it. -/
def maxByLast (l : List (Nat × ℚ)) : Option (Nat × ℚ) :=
  l.foldl
    (fun acc y =>
      match acc with
      | none => some y
      | some x => if y.2 < x.2 then some x else some y)
    none

/-- The greedy sampling step of `run_inference`: index chosen from the
logits vector (src/services.rs lines 81-88). `none` models the
`.unwrap()` panic on an empty logits vector. -/
def argmaxLogits (logits : List ℚ) : Option Nat :=
  (maxByLast logits.enum).map Prod.fst

/-- The external llama runtime interface used by `run_inference`
(src/services.rs): context creation, tokenizer, end-of-sequence token,
token detokenization (composed with the lossy UTF-8 conversion of
line 97, which never fails), logit reads and decode calls.  The last
two are abstract functions of the full history of (token id, position)
pairs fed to the context so far, which is all the request ever feeds it. -/
structure Env where
  new_context : Except String Unit
  str_to_token : List Char → Except String (List Int)
  token_eos : Int
  token_to_bytes : Int → Except String (List Char)
  get_logits : List (Int × Int) → List ℚ
  decode : List (Int × Int) → Except String Unit

/-- State of the generation loop of `run_inference`: accumulated output
`out`, next feed position `pos`, the history `fed` of (token, position)
pairs decoded into the context (prefill included), and the number of
loop iterations entered so far. -/
structure GenState where
  out : List Char
  pos : Int
  fed : List (Int × Int)
  iters : Nat
deriving DecidableEq, Repr

/-- Outcome of the decode part of `run_inference`, keeping the final
loop state on success; `panic` models the `.unwrap()` on the empty
greedy-sampling maximum. -/
inductive TracedOutcome
  | ok (s : GenState)
  | err (e : ServiceError)
  | panic
deriving DecidableEq, Repr

/-- Result of `run_inference` itself (`Result<String, ServiceError>` in
the source, plus the panic case). -/
inductive RunResult
  | ok (answer : List Char)
  | err (e : ServiceError)
  | panic
deriving DecidableEq, Repr

/-- `const MAX_NEW_TOKENS: i32 = 4096` (src/services.rs line 46). -/
def MAX_NEW_TOKENS : Nat := 4096

/-- The prefill batch of src/services.rs lines 64-68: prompt token `t`
at index `i` is added at position `i` (the logits flag `i == last_idx`
does not affect the fed pairs). -/
def prefillFed (toks : List Int) : List (Int × Int) :=
  toks.enum.map (fun p => (p.2, (p.1 : Int)))

/-- One-iteration-at-a-time model of the generation loop of
`run_inference` (src/services.rs lines 77-103), with `fuel` the number
of remaining iterations of `for _ in 0..MAX_NEW_TOKENS`. -/
def genLoop (env : Env) : Nat → GenState → TracedOutcome
  | 0, s => .ok s
  | fuel + 1, s =>
    match argmaxLogits (env.get_logits s.fed) with
    | none => .panic
    | some i =>
      let next_id : Int := (i : Int)
      if next_id = env.token_eos then
        .ok { s with iters := s.iters + 1 }
      else
        match env.token_to_bytes next_id with
        | .error e => .err (.LlamaTokenProcess e)
        | .ok bytes =>
          let fed := s.fed ++ [(next_id, s.pos)]
          match env.decode fed with
          | .error e => .err (.LlamaDecode e)
          | .ok _ =>
              genLoop env fuel
                { out := s.out ++ bytes, pos := s.pos + 1, fed := fed,
                  iters := s.iters + 1 }

/-- `run_inference` (src/services.rs lines 45-109) up to the end of the
generation loop, keeping the final loop state: build the prompt, create
the context, tokenize, prefill, then run the loop with the position
counter starting at `batch.n_tokens()` = number of prompt tokens. -/
def run_inference_traced (env : Env) (messages : List Message) : TracedOutcome :=
  let prompt_str := build_prompt_from_messages messages
  match env.new_context with
  | .error e => .err (.LlamaContext e)
  | .ok _ =>
    match env.str_to_token prompt_str with
    | .error e => .err (.LlamaTokenize e)
    | .ok toks =>
      match env.decode (prefillFed toks) with
      | .error e => .err (.LlamaDecode e)
      | .ok _ =>
          genLoop env MAX_NEW_TOKENS
            { out := [], pos := (toks.length : Int), fed := prefillFed toks,
              iters := 0 }

/-- `run_inference` (src/services.rs lines 45-109): the final answer is
the post-processed accumulated output. -/
def run_inference (env : Env) (messages : List Message) : RunResult :=
  match run_inference_traced env messages with
  | .ok s => .ok (parse_and_log_thoughts s.out)
  | .err e => .err e
  | .panic => .panic

/-- Iteration count of a successful decode, `0` otherwise. -/
def TracedOutcome.itersOf : TracedOutcome → Nat
  | .ok s => s.iters
  | _ => 0

/-- Whether the decode part finished without error or panic. -/
def TracedOutcome.isOkOutcome : TracedOutcome → Bool
  | .ok _ => true
  | _ => false

/-- Whether `run_inference` returned `Ok`. -/
def RunResult.isOkResult : RunResult → Bool
  | .ok _ => true
  | _ => false

/-- Decidable presence of the thought marker anywhere in `s` (every
occurrence start lies below `s.length`, so the bounded scan is
exhaustive). -/
def hasMarker (s : List Char) : Bool :=
  (List.range (s.length + 1)).any (markerAt thinkMarker s)

/-- Concrete runtime used to exercise the pipeline on closed inputs:
the tokenizer accepts exactly the bare assistant generation cue, and
the very first greedy pick is the end-of-sequence token. -/
def demoEnv : Env where
  new_context := .ok ()
  str_to_token := fun s =>
    if s == "<|im_start|>assistant\n".toList then .ok [3]
    else .error "unexpected prompt"
  token_eos := 0
  token_to_bytes := fun _ => .ok []
  get_logits := fun _ => [5]
  decode := fun _ => .ok ()

/-- Concrete runtime whose greedy pick is never the end-of-sequence
token and whose decode calls always succeed. -/
def constEnv : Env where
  new_context := .ok ()
  str_to_token := fun _ => .ok [2]
  token_eos := 5
  token_to_bytes := fun _ => .ok [Char.ofNat 120]
  get_logits := fun _ => [0, 1]
  decode := fun _ => .ok ()

/-- Concrete runtime whose decode calls always fail. -/
def failEnv : Env where
  new_context := .ok ()
  str_to_token := fun _ => .ok [2]
  token_eos := 5
  token_to_bytes := fun _ => .ok [Char.ofNat 120]
  get_logits := fun _ => [0, 1]
  decode := fun _ => .error "decode failure"

/-! ## Helper lemmas -/

theorem markerAt_bound (pat s : List Char) (q : Nat) (hpat : pat ≠ [])
    (h : markerAt pat s q = true) : q + pat.length ≤ s.length := by
  have heq : (s.drop q).take pat.length = pat := by
    simpa [markerAt] using h
  have hlen : min pat.length (s.length - q) = pat.length := by
    have := congrArg List.length heq
    simpa [List.length_take, List.length_drop] using this
  have hpos : 0 < pat.length := List.length_pos.mpr hpat
  omega

theorem rfindFrom_some (pat s : List Char) :
    ∀ n p, rfindFrom pat s n = some p → markerAt pat s p = true ∧ p ≤ n := by
  intro n
  induction n with
  | zero =>
    intro p hp
    by_cases h : markerAt pat s 0 = true
    · simp [rfindFrom, h] at hp
      exact ⟨hp ▸ h, hp ▸ le_refl 0⟩
    · simp [rfindFrom, h] at hp
  | succ n ih =>
    intro p hp
    by_cases h : markerAt pat s (n + 1) = true
    · simp [rfindFrom, h] at hp
      exact ⟨hp ▸ h, hp ▸ le_refl (n + 1)⟩
    · simp [rfindFrom, h] at hp
      obtain ⟨h1, h2⟩ := ih p hp
      exact ⟨h1, Nat.le_succ_of_le h2⟩

theorem rfindFrom_of_markerAt (pat s : List Char) :
    ∀ n q, q ≤ n → markerAt pat s q = true →
      ∃ p, rfindFrom pat s n = some p ∧ q ≤ p := by
  intro n
  induction n with
  | zero =>
    intro q hq hmark
    have : q = 0 := Nat.le_zero.mp hq
    subst this
    exact ⟨0, by simp [rfindFrom, hmark], le_refl 0⟩
  | succ n ih =>
    intro q hq hmark
    by_cases h : markerAt pat s (n + 1) = true
    · exact ⟨n + 1, by simp [rfindFrom, h], hq⟩
    · have hqn : q ≤ n := by
        rcases Nat.lt_or_ge q (n + 1) with h' | h'
        · omega
        · exfalso
          have : q = n + 1 := le_antisymm hq h'
          rw [this] at hmark
          exact h hmark
      obtain ⟨p, hp, hqp⟩ := ih q hqn hmark
      exact ⟨p, by simp [rfindFrom, h, hp], hqp⟩

theorem rfindMarker_some (pat s : List Char) (p : Nat)
    (h : rfindMarker pat s = some p) : markerAt pat s p = true :=
  (rfindFrom_some pat s s.length p h).1

theorem rfindMarker_of_markerAt (pat s : List Char) (q : Nat) (hpat : pat ≠ [])
    (h : markerAt pat s q = true) :
    ∃ p, rfindMarker pat s = some p ∧ q ≤ p := by
  have hb := markerAt_bound pat s q hpat h
  have hq : q ≤ s.length := by
    have := List.length_pos.mpr hpat
    omega
  exact rfindFrom_of_markerAt pat s s.length q hq h

theorem rfindMarker_maximal (pat s : List Char) (p q : Nat) (hpat : pat ≠ [])
    (hfind : rfindMarker pat s = some p) (h : markerAt pat s q = true) :
    q ≤ p := by
  obtain ⟨p', hp', hqp'⟩ := rfindMarker_of_markerAt pat s q hpat h
  rw [hfind] at hp'
  exact (Option.some.injEq _ _ ▸ hp') ▸ hqp'

theorem rfindMarker_none (pat s : List Char) (q : Nat) (hpat : pat ≠ [])
    (hfind : rfindMarker pat s = none) : markerAt pat s q = false := by
  rcases Bool.eq_false_or_eq_true (markerAt pat s q) with h | h
  · obtain ⟨p, hp, _⟩ := rfindMarker_of_markerAt pat s q hpat h
    rw [hfind] at hp
    cases hp
  · exact h

theorem markerAt_drop (pat s : List Char) (j q : Nat) :
    markerAt pat (s.drop j) q = markerAt pat s (j + q) := by
  unfold markerAt
  rw [List.drop_drop]

theorem trimStart_is_drop (s : List Char) : ∃ m, trimStart s = s.drop m := by
  induction s with
  | nil => exact ⟨0, rfl⟩
  | cons c cs ih =>
    by_cases h : rustWhitespace c
    · obtain ⟨m, hm⟩ := ih
      exact ⟨m + 1, by simpa [trimStart, List.dropWhile_cons, h] using hm⟩
    · exact ⟨0, by simp [trimStart, List.dropWhile_cons, h]⟩

theorem thinkMarker_ne_nil : thinkMarker ≠ [] := by decide

/-- The answer component of the thought split never contains the
closing thought marker. -/
theorem splitThoughts_no_marker (raw : List Char) (q : Nat) :
    markerAt thinkMarker (splitThoughts raw).2 q = false := by
  unfold splitThoughts
  cases hfind : rfindMarker thinkMarker raw with
  | none =>
    exact rfindMarker_none thinkMarker raw q thinkMarker_ne_nil hfind
  | some p =>
    simp only
    rcases Bool.eq_false_or_eq_true
      (markerAt thinkMarker (trimStart (raw.drop (p + thinkMarker.length))) q)
      with h | h
    · exfalso
      obtain ⟨m, hm⟩ := trimStart_is_drop (raw.drop (p + thinkMarker.length))
      rw [hm, List.drop_drop, markerAt_drop] at h
      have hle := rfindMarker_maximal thinkMarker raw p _ thinkMarker_ne_nil hfind h
      have : 0 < thinkMarker.length := List.length_pos.mpr thinkMarker_ne_nil
      omega
    · exact h

theorem maxByLast_append (l : List (Nat × ℚ)) (y : Nat × ℚ) :
    maxByLast (l ++ [y]) =
      match maxByLast l with
      | none => some y
      | some x => if y.2 < x.2 then some x else some y := by
  unfold maxByLast
  rw [List.foldl_append]
  rfl

/-- The greedy fold keeps the current best only on a strictly greater
comparison, so it lands on the last occurrence of the maximum: the
winning index dominates every entry weakly, and every later entry
strictly. -/
theorem maxByLast_enum_spec (l : List ℚ) :
    (l = [] ∧ maxByLast l.enum = none) ∨
    ∃ i, maxByLast l.enum = some (i, l.getD i 0) ∧ i < l.length ∧
      (∀ j, j < l.length → l.getD j 0 ≤ l.getD i 0) ∧
      (∀ j, i < j → j < l.length → l.getD j 0 < l.getD i 0) := by
  induction l using List.reverseRecOn with
  | nil => exact Or.inl ⟨rfl, rfl⟩
  | append_singleton l a ih =>
    right
    have henum : (l ++ [a]).enum = l.enum ++ [(l.length, a)] := by
      rw [List.enum_append]
      simp [List.enumFrom]
    have hgeta : (l ++ [a]).getD l.length 0 = a := by
      rw [List.getD_append_right l [a] 0 l.length (le_refl _)]
      simp
    have hgetl : ∀ j, j < l.length → (l ++ [a]).getD j 0 = l.getD j 0 :=
      fun j hj => List.getD_append l [a] 0 j hj
    rcases ih with ⟨hnil, -⟩ | ⟨i, hmax, hlt, hle, hstrict⟩
    · subst hnil
      refine ⟨0, ?_, by simp, ?_, ?_⟩
      · simp [List.enum, List.enumFrom, maxByLast]
      · intro j hj
        have : j = 0 := by simpa using hj
        subst this
        exact le_refl _
      · intro j h1 h2
        simp at h2
        omega
    · rw [henum, maxByLast_append, hmax]
      by_cases hcmp : a < l.getD i 0
      · refine ⟨i, ?_, ?_, ?_, ?_⟩
        · rw [hgetl i hlt]
          show (if a < l.getD i 0 then some (i, l.getD i 0)
            else some (l.length, a)) = some (i, l.getD i 0)
          rw [if_pos hcmp]
        · simp
          omega
        · intro j hj
          rw [hgetl i hlt]
          simp at hj
          rcases Nat.lt_or_ge j l.length with hj' | hj'
          · rw [hgetl j hj']
            exact hle j hj'
          · have : j = l.length := by omega
            subst this
            rw [hgeta]
            exact le_of_lt hcmp
        · intro j hij hj
          rw [hgetl i hlt]
          simp at hj
          rcases Nat.lt_or_ge j l.length with hj' | hj'
          · rw [hgetl j hj']
            exact hstrict j hij hj'
          · have : j = l.length := by omega
            subst this
            rw [hgeta]
            exact hcmp
      · refine ⟨l.length, ?_, by simp, ?_, ?_⟩
        · rw [hgeta]
          show (if a < l.getD i 0 then some (i, l.getD i 0)
            else some (l.length, a)) = some (l.length, a)
          rw [if_neg hcmp]
        · intro j hj
          rw [hgeta]
          simp at hj
          rcases Nat.lt_or_ge j l.length with hj' | hj'
          · rw [hgetl j hj']
            exact le_trans (hle j hj') (not_lt.mp hcmp)
          · have : j = l.length := by omega
            subst this
            rw [hgeta]
        · intro j hij hj
          simp at hj
          omega

/-- Characterization of the greedy sampling index of src/services.rs
lines 81-88: it is a position of the maximum of the logits vector, and
the last such position. -/
theorem argmaxLogits_spec (l : List ℚ) (i : Nat) (h : argmaxLogits l = some i) :
    i < l.length ∧ (∀ j, j < l.length → l.getD j 0 ≤ l.getD i 0) ∧
      (∀ j, i < j → j < l.length → l.getD j 0 < l.getD i 0) := by
  rcases maxByLast_enum_spec l with ⟨-, hmax⟩ | ⟨i', hmax, hlt, hle, hstrict⟩
  · rw [argmaxLogits, hmax] at h
    cases h
  · rw [argmaxLogits, hmax] at h
    simp at h
    subst h
    exact ⟨hlt, hle, hstrict⟩

/-- Unfolding of one loop iteration that breaks on the stop token. -/
theorem genLoop_eos (env : Env) (fuel : Nat) (s : GenState) (i : Nat)
    (h1 : argmaxLogits (env.get_logits s.fed) = some i)
    (h2 : (i : Int) = env.token_eos) :
    genLoop env (fuel + 1) s = .ok { s with iters := s.iters + 1 } := by
  simp [genLoop, h1, h2]

/-- Unfolding of one loop iteration that appends a generated token. -/
theorem genLoop_step (env : Env) (fuel : Nat) (s : GenState) (i : Nat)
    (bytes : List Char)
    (h1 : argmaxLogits (env.get_logits s.fed) = some i)
    (h2 : (i : Int) ≠ env.token_eos)
    (h3 : env.token_to_bytes (i : Int) = .ok bytes)
    (h4 : env.decode (s.fed ++ [((i : Int), s.pos)]) = .ok ()) :
    genLoop env (fuel + 1) s =
      genLoop env fuel
        { out := s.out ++ bytes, pos := s.pos + 1,
          fed := s.fed ++ [((i : Int), s.pos)], iters := s.iters + 1 } := by
  simp [genLoop, h1, h2, h3, h4]

/-- Unfolding of one loop iteration that panics on an empty logits
vector. -/
theorem genLoop_panic (env : Env) (fuel : Nat) (s : GenState)
    (h : argmaxLogits (env.get_logits s.fed) = none) :
    genLoop env (fuel + 1) s = .panic := by
  simp [genLoop, h]

/-- Unfolding of one loop iteration that fails to detokenize. -/
theorem genLoop_bytes_err (env : Env) (fuel : Nat) (s : GenState) (i : Nat)
    (e : String)
    (h1 : argmaxLogits (env.get_logits s.fed) = some i)
    (h2 : (i : Int) ≠ env.token_eos)
    (h3 : env.token_to_bytes (i : Int) = .error e) :
    genLoop env (fuel + 1) s = .err (.LlamaTokenProcess e) := by
  simp [genLoop, h1, h2, h3]

/-- Unfolding of one loop iteration whose incremental decode fails. -/
theorem genLoop_decode_err (env : Env) (fuel : Nat) (s : GenState) (i : Nat)
    (bytes : List Char) (e : String)
    (h1 : argmaxLogits (env.get_logits s.fed) = some i)
    (h2 : (i : Int) ≠ env.token_eos)
    (h3 : env.token_to_bytes (i : Int) = .ok bytes)
    (h4 : env.decode (s.fed ++ [((i : Int), s.pos)]) = .error e) :
    genLoop env (fuel + 1) s = .err (.LlamaDecode e) := by
  simp [genLoop, h1, h2, h3, h4]

/-- If the greedy pick never hits the stop token and the runtime never
fails, the loop consumes all its fuel and adds exactly `fuel` to the
iteration counter. -/
theorem genLoop_runs_full (env : Env)
    (hdec : ∀ h, env.decode h = Except.ok ())
    (hlog : ∀ h, ∃ i, argmaxLogits (env.get_logits h) = some i ∧
      (i : Int) ≠ env.token_eos)
    (hbytes : ∀ t, ∃ b, env.token_to_bytes t = Except.ok b) :
    ∀ fuel s, ∃ s2, genLoop env fuel s = .ok s2 ∧ s2.iters = s.iters + fuel := by
  intro fuel
  induction fuel with
  | zero => exact fun s => ⟨s, rfl, by omega⟩
  | succ n ih =>
    intro s
    obtain ⟨i, hi, hne⟩ := hlog s.fed
    obtain ⟨b, hb⟩ := hbytes (i : Int)
    have hstep := genLoop_step env n s i b hi hne hb (hdec _)
    obtain ⟨s2, hs2, hit⟩ := ih
      { out := s.out ++ b, pos := s.pos + 1,
        fed := s.fed ++ [((i : Int), s.pos)], iters := s.iters + 1 }
    simp only at hit
    exact ⟨s2, hstep ▸ hs2, by omega⟩

/-- Positions recorded by the prefill batch are `0, 1, 2, …` in order. -/
theorem prefillFed_positions (toks : List Int) :
    (prefillFed toks).map Prod.snd =
      (List.range (prefillFed toks).length).map (fun n : Nat => (n : Int)) := by
  have hlen : (prefillFed toks).length = toks.length := by
    simp [prefillFed]
  rw [hlen]
  unfold prefillFed
  rw [List.map_map, List.enum_eq_zip_range]
  have hfst : ((List.range toks.length).zip toks).map Prod.fst =
      List.range toks.length :=
    List.map_fst_zip _ _ (by simp)
  calc ((List.range toks.length).zip toks).map
        (Prod.snd ∘ fun p => (p.2, (p.1 : Int)))
      = ((List.range toks.length).zip toks).map
          ((fun n : Nat => (n : Int)) ∘ Prod.fst) := rfl
    _ = (((List.range toks.length).zip toks).map Prod.fst).map
          (fun n : Nat => (n : Int)) := (List.map_map _ _ _).symm
    _ = (List.range toks.length).map (fun n : Nat => (n : Int)) := by rw [hfst]

/-- The generation loop preserves the invariant that the fed positions
are exactly `0, 1, …` and the position counter is the number of tokens
fed so far. -/
theorem genLoop_positions (env : Env) :
    ∀ fuel st s2, genLoop env fuel st = .ok s2 →
      st.fed.map Prod.snd =
        (List.range st.fed.length).map (fun n : Nat => (n : Int)) →
      st.pos = (st.fed.length : Int) →
      s2.fed.map Prod.snd =
        (List.range s2.fed.length).map (fun n : Nat => (n : Int)) := by
  intro fuel
  induction fuel with
  | zero =>
    intro st s2 h hinv hpos
    cases h
    exact hinv
  | succ n ih =>
    intro st s2 h hinv hpos
    cases hargs : argmaxLogits (env.get_logits st.fed) with
    | none =>
      rw [genLoop_panic env n st hargs] at h
      cases h
    | some i =>
      by_cases heos : (i : Int) = env.token_eos
      · rw [genLoop_eos env n st i hargs heos] at h
        cases h
        exact hinv
      · cases hbytes : env.token_to_bytes (i : Int) with
        | error e =>
          rw [genLoop_bytes_err env n st i e hargs heos hbytes] at h
          cases h
        | ok bytes =>
          cases hdec : env.decode (st.fed ++ [((i : Int), st.pos)]) with
          | error e =>
            rw [genLoop_decode_err env n st i bytes e hargs heos hbytes hdec] at h
            cases h
          | ok u =>
            cases u
            rw [genLoop_step env n st i bytes hargs heos hbytes hdec] at h
            refine ih _ s2 h ?_ ?_
            · rw [List.map_append, hinv,
                show (st.fed ++ [((i : Int), st.pos)]).length = st.fed.length + 1
                  from by simp,
                List.range_succ, List.map_append]
              simp [hpos]
            · simp [hpos]

/-- The prompt-building fold is the flattening of the per-message
turns, appended to the accumulator. -/
theorem build_prompt_foldl (messages : List Message) (acc : List Char) :
    messages.foldl (fun prompt message => prompt ++ turnOf message) acc =
      acc ++ (messages.map turnOf).flatten := by
  induction messages generalizing acc with
  | nil => simp
  | cons m ms ih => simp [ih]

/-! ## Claim theorems -/

/-- **C1** (counterexample): contrary to the claim, the greedy selection
on the logits vector `[0.5, 0.9, 0.9, 0.1]` does not pick index 1: the
Rust `max_by` fold replaces the running best on ties, so it picks
index 2, the last occurrence of the maximum. -/
theorem C1_counterexample :
    argmaxLogits [(1 : ℚ)/2, 9/10, 9/10, 1/10] = some 2 ∧
      ¬ argmaxLogits [(1 : ℚ)/2, 9/10, 9/10, 1/10] = some 1 := by
  constructor <;> norm_num [argmaxLogits, maxByLast, List.enum, List.enumFrom]

/-- **C1** (amended): in the autoregressive generation loop the next
token id is chosen as the arg-max over the logits vector, and when
several positions hold the same maximal value the HIGHEST index (the
last occurrence of the maximum) is selected; in particular, for the
logits vector `[0.5, 0.9, 0.9, 0.1]` the selected index is 2. -/
theorem C1_argmax_last_occurrence (l : List ℚ) (i : Nat)
    (h : argmaxLogits l = some i) :
    (i < l.length ∧ (∀ j, j < l.length → l.getD j 0 ≤ l.getD i 0) ∧
      (∀ j, i < j → j < l.length → l.getD j 0 < l.getD i 0)) ∧
    argmaxLogits [(1 : ℚ)/2, 9/10, 9/10, 1/10] = some 2 := by
  refine ⟨argmaxLogits_spec l i h, ?_⟩
  norm_num [argmaxLogits, maxByLast, List.enum, List.enumFrom]

theorem C1_argmax_last_occurrence_witness :
    argmaxLogits [(1 : ℚ)/2, 9/10, 9/10, 1/10] = some 2 :=
  (C1_argmax_last_occurrence [(0 : ℚ), 1] 1 (by decide)).2

/-- **C2**: when the marker `</think>` occurs in the raw output, the
split point is the LAST occurrence `p`: the thought component is
`raw[0 .. p+L]`, the answer is `raw[p+L ..]` with leading whitespace
trimmed, and `"a</think>b</think>c"` yields thought
`"a</think>b</think>"` and answer `"c"`. -/
theorem C2_split_at_last_marker (raw : List Char)
    (hocc : ∃ q, markerAt thinkMarker raw q = true) :
    (∃ p, rfindMarker thinkMarker raw = some p ∧
      markerAt thinkMarker raw p = true ∧
      (∀ q, markerAt thinkMarker raw q = true → q ≤ p) ∧
      splitThoughts raw =
        (some (raw.take (p + thinkMarker.length)),
         trimStart (raw.drop (p + thinkMarker.length)))) ∧
    splitThoughts "a</think>b</think>c".toList =
      (some "a</think>b</think>".toList, "c".toList) := by
  constructor
  · obtain ⟨q, hq⟩ := hocc
    obtain ⟨p, hp, -⟩ := rfindMarker_of_markerAt _ _ q thinkMarker_ne_nil hq
    refine ⟨p, hp, rfindMarker_some _ _ p hp,
      fun q2 hq2 => rfindMarker_maximal _ _ p q2 thinkMarker_ne_nil hp hq2, ?_⟩
    simp [splitThoughts, hp]
  · decide

theorem C2_split_at_last_marker_witness :
    splitThoughts "a</think>b</think>c".toList =
      (some "a</think>b</think>".toList, "c".toList) :=
  (C2_split_at_last_marker "a</think>b</think>c".toList ⟨1, by decide⟩).2

/-- **C3**: every token fed into the decoding context during one
request sits at position `0, 1, 2, …` in feed order: the prompt tokens
occupy positions `0 .. n-1` and each generated token is fed at the next
sequential position, the counter advancing by one per token. -/
theorem C3_positions_strictly_sequential (env : Env) (messages : List Message)
    (s : GenState) (h : run_inference_traced env messages = .ok s) :
    s.fed.map Prod.snd =
      (List.range s.fed.length).map (fun n : Nat => (n : Int)) := by
  simp only [run_inference_traced] at h
  split at h
  · cases h
  · split at h
    · cases h
    · split at h
      · cases h
      · exact genLoop_positions env MAX_NEW_TOKENS _ s h
          (prefillFed_positions _) (by simp [prefillFed])

theorem C3_positions_strictly_sequential_witness :
    (⟨[], 1, [((3 : Int), (0 : Int))], 1⟩ : GenState).fed.map Prod.snd =
      (List.range
        (⟨[], 1, [((3 : Int), (0 : Int))], 1⟩ : GenState).fed.length).map
        (fun n : Nat => (n : Int)) :=
  C3_positions_strictly_sequential demoEnv []
    ⟨[], 1, [((3 : Int), (0 : Int))], 1⟩ (by decide)

/-- **C4**: if the first greedy pick equals the end-of-sequence token,
the loop stops during its first iteration (exactly one iteration runs),
the accumulated raw output is empty, and the request succeeds with the
empty answer. -/
theorem C4_stop_token_first_iteration (env : Env) (messages : List Message)
    (toks : List Int) (i : Nat)
    (h1 : env.new_context = .ok ())
    (h2 : env.str_to_token (build_prompt_from_messages messages) = .ok toks)
    (h3 : env.decode (prefillFed toks) = .ok ())
    (h4 : argmaxLogits (env.get_logits (prefillFed toks)) = some i)
    (h5 : (i : Int) = env.token_eos) :
    run_inference_traced env messages =
      .ok { out := [], pos := (toks.length : Int), fed := prefillFed toks,
            iters := 1 } ∧
    run_inference env messages = .ok [] := by
  have htr : run_inference_traced env messages =
      .ok { out := [], pos := (toks.length : Int), fed := prefillFed toks,
            iters := 1 } := by
    simp only [run_inference_traced, h1, h2, h3]
    rw [show MAX_NEW_TOKENS = 4095 + 1 from rfl,
      genLoop_eos env 4095 _ i h4 h5]
  refine ⟨htr, ?_⟩
  simp only [run_inference, htr]
  decide

theorem C4_stop_token_first_iteration_witness :
    run_inference_traced demoEnv [] =
      .ok { out := [], pos := ((1 : Nat) : Int), fed := prefillFed [3],
            iters := 1 } ∧
    run_inference demoEnv [] = .ok [] :=
  C4_stop_token_first_iteration demoEnv [] [3] 0 rfl rfl rfl
    (by decide) rfl

/-- **C5**: if the end-of-sequence token is never selected and no
runtime call fails, the generation loop performs exactly
`MAX_NEW_TOKENS` iterations and the request returns the accumulated
text as a success, never as an error. -/
theorem C5_max_tokens_then_ok (env : Env) (messages : List Message)
    (toks : List Int)
    (h1 : env.new_context = .ok ())
    (h2 : env.str_to_token (build_prompt_from_messages messages) = .ok toks)
    (hdec : ∀ h, env.decode h = Except.ok ())
    (hlog : ∀ h, ∃ i, argmaxLogits (env.get_logits h) = some i ∧
      (i : Int) ≠ env.token_eos)
    (hbytes : ∀ t, ∃ b, env.token_to_bytes t = Except.ok b) :
    (run_inference_traced env messages).itersOf = MAX_NEW_TOKENS ∧
    (run_inference_traced env messages).isOkOutcome = true ∧
    (run_inference env messages).isOkResult = true := by
  obtain ⟨s2, hs2, hit⟩ := genLoop_runs_full env hdec hlog hbytes MAX_NEW_TOKENS
    { out := [], pos := (toks.length : Int), fed := prefillFed toks, iters := 0 }
  have htr : run_inference_traced env messages = .ok s2 := by
    simp only [run_inference_traced, h1, h2, hdec (prefillFed toks)]
    exact hs2
  simp only at hit
  refine ⟨?_, ?_, ?_⟩
  · rw [htr]
    show s2.iters = MAX_NEW_TOKENS
    omega
  · rw [htr]
    rfl
  · simp only [run_inference, htr]
    rfl

theorem C5_max_tokens_then_ok_witness :
    (run_inference_traced constEnv []).itersOf = MAX_NEW_TOKENS ∧
    (run_inference_traced constEnv []).isOkOutcome = true ∧
    (run_inference constEnv []).isOkResult = true :=
  C5_max_tokens_then_ok constEnv [] [2] rfl rfl (fun _ => rfl)
    (fun _ =>
      show ∃ i, argmaxLogits [(0 : ℚ), 1] = some i ∧
          (i : Int) ≠ constEnv.token_eos from ⟨1, by decide, by decide⟩)
    (fun _ => ⟨[Char.ofNat 120], rfl⟩)

/-- **C6**: when the batched prefill decode call fails, `run_inference`
returns a `LlamaDecode` ServiceError immediately and never a successful
result with partial text. -/
theorem C6_prefill_decode_error (env : Env) (messages : List Message)
    (toks : List Int) (e : String)
    (h1 : env.new_context = .ok ())
    (h2 : env.str_to_token (build_prompt_from_messages messages) = .ok toks)
    (h3 : env.decode (prefillFed toks) = .error e) :
    run_inference env messages = .err (.LlamaDecode e) ∧
    run_inference_traced env messages = .err (.LlamaDecode e) := by
  have htr : run_inference_traced env messages = .err (.LlamaDecode e) := by
    simp only [run_inference_traced, h1, h2, h3]
  exact ⟨by simp only [run_inference, htr], htr⟩

theorem C6_prefill_decode_error_witness :
    run_inference failEnv [] = .err (.LlamaDecode "decode failure") ∧
    run_inference_traced failEnv [] = .err (.LlamaDecode "decode failure") :=
  C6_prefill_decode_error failEnv [] [2] "decode failure" rfl rfl rfl

/-- **C7**: for every conversation history, the rendered prompt is the
concatenation, in input order, of one turn per message (start marker
with role name, newline, content, end marker, newline), followed by a
final assistant start marker with no content — so the prompt always
ends with the assistant generation cue; the two-message spec example
renders accordingly. -/
theorem C7_turn_order_and_cue (messages : List Message) :
    build_prompt_from_messages messages =
      (messages.map turnOf).flatten ++ "<|im_start|>assistant\n".toList ∧
    build_prompt_from_messages
        [⟨Role.system, "S".toList⟩, ⟨Role.user, "U".toList⟩] =
      ("<|im_start|>system\nS<|im_end|>\n<|im_start|>user\nU<|im_end|>\n"
        ++ "<|im_start|>assistant\n").toList := by
  constructor
  · rw [build_prompt_from_messages, build_prompt_foldl]
    simp
  · decide

/-- **C8**: when the marker `</think>` does not occur in the raw
output, the split yields no thought and the answer is the raw string
unchanged; `"hello world"` maps to thought `none`, answer
`"hello world"`. -/
theorem C8_no_marker_identity (raw : List Char) (h : hasMarker raw = false) :
    splitThoughts raw = (none, raw) ∧
    splitThoughts "hello world".toList = (none, "hello world".toList) := by
  constructor
  · have hnone : rfindMarker thinkMarker raw = none := by
      cases hfind : rfindMarker thinkMarker raw with
      | none => rfl
      | some p =>
        exfalso
        have hocc := rfindMarker_some thinkMarker raw p hfind
        have hb := markerAt_bound thinkMarker raw p thinkMarker_ne_nil hocc
        have hany : (List.range (raw.length + 1)).any
            (markerAt thinkMarker raw) = true := by
          rw [List.any_eq_true]
          refine ⟨p, List.mem_range.mpr ?_, hocc⟩
          have : 0 < thinkMarker.length := List.length_pos.mpr thinkMarker_ne_nil
          omega
        rw [hasMarker] at h
        rw [h] at hany
        cases hany
    simp [splitThoughts, hnone]
  · decide

theorem C8_no_marker_identity_witness :
    splitThoughts "hello world".toList = (none, "hello world".toList) :=
  (C8_no_marker_identity "hello world".toList (by decide)).1

/-- **C9**: every answer returned successfully by `run_inference` is
free of the marker `</think>`, whether or not a thought block was
present in the raw output. -/
theorem C9_answer_free_of_marker (env : Env) (messages : List Message)
    (ans : List Char) (h : run_inference env messages = .ok ans) (q : Nat) :
    markerAt thinkMarker ans q = false := by
  unfold run_inference at h
  cases htr : run_inference_traced env messages with
  | ok s =>
    rw [htr] at h
    simp only at h
    have hans : parse_and_log_thoughts s.out = ans := by
      cases h
      rfl
    rw [← hans]
    exact splitThoughts_no_marker s.out q
  | err e => rw [htr] at h; cases h
  | panic => rw [htr] at h; cases h

theorem C9_answer_free_of_marker_witness :
    markerAt thinkMarker [] 0 = false :=
  C9_answer_free_of_marker demoEnv [] [] (by decide) 0

/-- **C10**: the empty conversation history is accepted: it renders to
exactly the assistant generation cue, and the pipeline generates from
that prompt rather than failing (`demoEnv`'s tokenizer accepts only the
bare cue, so the successful run also certifies the prompt fed to it). -/
theorem C10_empty_history_accepted :
    build_prompt_from_messages [] = "<|im_start|>assistant\n".toList ∧
    run_inference demoEnv [] = .ok [] := by
  exact ⟨by decide, by decide⟩

end AiApi
